import Mathlib

/-!
Verification development for the Oracle OTBI SOAP adapter
(`src/services/geminiService.ts`, SOAP-service section, plus the row-limit
coercion in the application shell and the constants module).

The adapter's pure transforms are embedded shallowly:
* `encodeBase64` / `decodeBase64` — the byte-safe Base64 codec built from
  `TextEncoder`/`TextDecoder` (UTF-8) and `btoa`/`atob` (standard Base64);
* `sanitizeSql`, `wrapSql`, `splitChunks`, `prepareSqlChunks` — the SQL
  sanitising / row-limit wrapping / 32767-character chunking pipeline of
  `prepareSqlParameters`;
* `parseOracleXML` over an element tree — the row-flattening step;
* `checkHttpStatus`, `decodeSoapOk` — the fault / payload extraction on the
  HTTP response;
* `resolveTargetUrl`, `resolveFetchUrl` — URL and CORS-proxy resolution;
* `replaceFirst`, `buildSoapBody` — template substitution;
* `jsParseInt`, `rowLimitCoerce` — the row-limit input coercion.
-/

namespace OtbiAdapter

/-- `CHUNK_SIZE` from `src/services/geminiService.ts` line 60. -/
def CHUNK_SIZE : Nat := 32767

/-- `REPORT_SERVICE_PATH` from `src/constants.ts`. -/
def REPORT_SERVICE_PATH : String := "/xmlpserver/services/v2/ReportService"

/-! ## UTF-8 byte encoding (model of `TextEncoder`/`TextDecoder`)

`encodeBase64` starts with `new TextEncoder().encode(str)`: the standard
UTF-8 byte sequence of the string.  Bytes are modelled as `Nat` values below
256. -/

/-- UTF-8 bytes of one Unicode scalar value (what `TextEncoder` emits per
character). -/
def utf8EncodeChar (c : Char) : List Nat :=
  let n := c.toNat
  if n < 128 then [n]
  else if n < 2048 then [192 + n / 64, 128 + n % 64]
  else if n < 65536 then [224 + n / 4096, 128 + n / 64 % 64, 128 + n % 64]
  else [240 + n / 262144, 128 + n / 4096 % 64, 128 + n / 64 % 64, 128 + n % 64]

/-- UTF-8 byte sequence of a string (model of `new TextEncoder().encode`). -/
def utf8Encode (s : String) : List Nat :=
  s.data.flatMap utf8EncodeChar

/-- One UTF-8 decoding step: reads one scalar value off the front of the byte
list, returning it with the remaining bytes (`none` on exhausted or truncated
input). -/
def utf8Step : List Nat → Option (Char × List Nat)
  | [] => none
  | b :: rest =>
    if b < 128 then some (Char.ofNat b, rest)
    else if b < 224 then
      match rest with
      | [] => none
      | b2 :: rest2 => some (Char.ofNat (b % 32 * 64 + b2 % 64), rest2)
    else if b < 240 then
      match rest with
      | b2 :: b3 :: rest3 =>
          some (Char.ofNat (b % 16 * 4096 + b2 % 64 * 64 + b3 % 64), rest3)
      | _ => none
    else
      match rest with
      | b2 :: b3 :: b4 :: rest4 =>
          some (Char.ofNat (b % 8 * 262144 + b2 % 64 * 4096 + b3 % 64 * 64 + b4 % 64),
            rest4)
      | _ => none

/-- Iterated decoding with a step budget. -/
def utf8DecodeAux : Nat → List Nat → List Char
  | 0, _ => []
  | fuel + 1, l =>
    match utf8Step l with
    | none => []
    | some (c, rest) => c :: utf8DecodeAux fuel rest

/-- UTF-8 decoding of a byte list (model of `new TextDecoder().decode` on
well-formed input; ill-formed suffixes are dropped rather than replaced,
which is irrelevant for the round-trip facts proved here). -/
def utf8Decode (l : List Nat) : List Char :=
  utf8DecodeAux l.length l

theorem char_toNat_lt (c : Char) : c.toNat < 1114112 := by
  have h := c.valid
  show c.val.toNat < 1114112
  rcases h with h | ⟨h1, h2⟩
  · omega
  · omega

theorem utf8EncodeChar_lt (c : Char) : ∀ b ∈ utf8EncodeChar c, b < 256 := by
  intro b hb
  have hn := char_toNat_lt c
  simp only [utf8EncodeChar] at hb
  split at hb
  · simp only [List.mem_singleton] at hb
    omega
  · split at hb
    · simp only [List.mem_cons, List.not_mem_nil, or_false] at hb
      rcases hb with rfl | rfl <;> omega
    · split at hb
      · simp only [List.mem_cons, List.not_mem_nil, or_false] at hb
        rcases hb with rfl | rfl | rfl <;> omega
      · simp only [List.mem_cons, List.not_mem_nil, or_false] at hb
        rcases hb with rfl | rfl | rfl | rfl <;> omega

theorem utf8Step_encodeChar (c : Char) (rest : List Nat) :
    utf8Step (utf8EncodeChar c ++ rest) = some (c, rest) := by
  have hn := char_toNat_lt c
  simp only [utf8EncodeChar]
  by_cases h1 : c.toNat < 128
  · rw [if_pos h1, List.cons_append, List.nil_append, utf8Step.eq_def]
    dsimp only
    rw [if_pos h1, Char.ofNat_toNat]
  · by_cases h2 : c.toNat < 2048
    · rw [if_neg h1, if_pos h2, List.cons_append, List.cons_append,
        List.nil_append, utf8Step.eq_def]
      dsimp only
      have hb1 : ¬ (192 + c.toNat / 64 < 128) := by omega
      have hb2 : 192 + c.toNat / 64 < 224 := by omega
      rw [if_neg hb1, if_pos hb2]
      have harith : (192 + c.toNat / 64) % 32 * 64 + (128 + c.toNat % 64) % 64
          = c.toNat := by omega
      rw [harith, Char.ofNat_toNat]
    · by_cases h3 : c.toNat < 65536
      · rw [if_neg h1, if_neg h2, if_pos h3, List.cons_append,
          List.cons_append, List.cons_append, List.nil_append, utf8Step.eq_def]
        dsimp only
        have hb1 : ¬ (224 + c.toNat / 4096 < 128) := by omega
        have hb2 : ¬ (224 + c.toNat / 4096 < 224) := by omega
        have hb3 : 224 + c.toNat / 4096 < 240 := by omega
        rw [if_neg hb1, if_neg hb2, if_pos hb3]
        have harith : (224 + c.toNat / 4096) % 16 * 4096 +
            (128 + c.toNat / 64 % 64) % 64 * 64 + (128 + c.toNat % 64) % 64
            = c.toNat := by omega
        rw [harith, Char.ofNat_toNat]
      · rw [if_neg h1, if_neg h2, if_neg h3, List.cons_append,
          List.cons_append, List.cons_append, List.cons_append,
          List.nil_append, utf8Step.eq_def]
        dsimp only
        have hb1 : ¬ (240 + c.toNat / 262144 < 128) := by omega
        have hb2 : ¬ (240 + c.toNat / 262144 < 224) := by omega
        have hb3 : ¬ (240 + c.toNat / 262144 < 240) := by omega
        rw [if_neg hb1, if_neg hb2, if_neg hb3]
        have harith : (240 + c.toNat / 262144) % 8 * 262144 +
            (128 + c.toNat / 4096 % 64) % 64 * 4096 +
            (128 + c.toNat / 64 % 64) % 64 * 64 + (128 + c.toNat % 64) % 64
            = c.toNat := by omega
        rw [harith, Char.ofNat_toNat]

theorem utf8EncodeChar_ne_nil (c : Char) : utf8EncodeChar c ≠ [] := by
  simp only [utf8EncodeChar]
  split <;> [skip; split <;> [skip; split]] <;> simp

theorem utf8DecodeAux_flatMap (l : List Char) : ∀ fuel : Nat,
    (l.flatMap utf8EncodeChar).length ≤ fuel →
    utf8DecodeAux fuel (l.flatMap utf8EncodeChar) = l := by
  induction l with
  | nil =>
    intro fuel _
    cases fuel with
    | zero => rfl
    | succ n => simp [utf8DecodeAux, utf8Step]
  | cons c cs ih =>
    intro fuel hfuel
    rw [List.flatMap_cons] at hfuel ⊢
    have hne := utf8EncodeChar_ne_nil c
    have hlen : 1 ≤ (utf8EncodeChar c).length := by
      cases h : utf8EncodeChar c with
      | nil => exact absurd h hne
      | cons a as => simp
    rw [List.length_append] at hfuel
    cases fuel with
    | zero => omega
    | succ n =>
      rw [utf8DecodeAux, utf8Step_encodeChar]
      dsimp only
      rw [ih n (by omega)]

theorem utf8Decode_flatMap (l : List Char) :
    utf8Decode (l.flatMap utf8EncodeChar) = l :=
  utf8DecodeAux_flatMap l _ (Nat.le_refl _)

/-! ## Base64 (model of `btoa`/`atob`)

`encodeBase64` turns each byte into a single code-point character
(`String.fromCodePoint`) and calls `btoa`; `decodeBase64` calls `atob` and
reads each character's code point back (`codePointAt`).  At the byte level
this is exactly standard Base64 with `=` padding, modelled here on byte
lists. -/

def b64Alphabet : List Char :=
  "ABCDEFGHIJKLMNOPQRSTUVWXYZabcdefghijklmnopqrstuvwxyz0123456789+/".data

/-- The Base64 digit for a 6-bit value. -/
def b64Char (n : Nat) : Char := b64Alphabet.getD n 'A'

/-- The 6-bit value of a Base64 digit. -/
def b64Index (c : Char) : Nat := b64Alphabet.indexOf c

/-- Standard Base64 encoding of a byte list (model of `btoa` applied to a
binary string). -/
def b64EncodeBytes : List Nat → List Char
  | [] => []
  | [a] => [b64Char (a / 4), b64Char (a % 4 * 16), '=', '=']
  | [a, b] =>
    [b64Char (a / 4), b64Char (a % 4 * 16 + b / 16), b64Char (b % 16 * 4), '=']
  | a :: b :: c :: rest =>
    b64Char (a / 4) :: b64Char (a % 4 * 16 + b / 16) ::
      b64Char (b % 16 * 4 + c / 64) :: b64Char (c % 64) :: b64EncodeBytes rest

/-- Standard Base64 decoding to a byte list (model of `atob` on well-formed
input; on input `atob` would reject, the model returns a truncated byte list
where the source's `try/catch` returns the empty string). -/
def b64DecodeBytes : List Char → List Nat
  | c1 :: c2 :: c3 :: c4 :: rest =>
    if c3 = '=' then [b64Index c1 * 4 + b64Index c2 / 16]
    else if c4 = '=' then
      [b64Index c1 * 4 + b64Index c2 / 16, b64Index c2 % 16 * 16 + b64Index c3 / 4]
    else
      (b64Index c1 * 4 + b64Index c2 / 16) ::
        (b64Index c2 % 16 * 16 + b64Index c3 / 4) ::
        (b64Index c3 % 4 * 64 + b64Index c4) :: b64DecodeBytes rest
  | _ => []

theorem b64Index_b64Char : ∀ n : Nat, n < 64 → b64Index (b64Char n) = n := by
  decide

theorem b64Char_ne_pad : ∀ n : Nat, n < 64 → b64Char n ≠ '=' := by
  decide

theorem b64DecodeBytes_encodeBytes (l : List Nat) (h : ∀ b ∈ l, b < 256) :
    b64DecodeBytes (b64EncodeBytes l) = l := by
  induction l using b64EncodeBytes.induct with
  | case1 => rfl
  | case2 a =>
    have ha : a < 256 := h a (by simp)
    rw [b64EncodeBytes, b64DecodeBytes.eq_def]
    dsimp only
    rw [if_pos rfl, b64Index_b64Char _ (by omega), b64Index_b64Char _ (by omega)]
    have : a / 4 * 4 + a % 4 * 16 / 16 = a := by omega
    rw [this]
  | case3 a b =>
    have ha : a < 256 := h a (by simp)
    have hb : b < 256 := h b (by simp)
    rw [b64EncodeBytes, b64DecodeBytes.eq_def]
    dsimp only
    rw [if_neg (b64Char_ne_pad _ (by omega)), if_pos rfl,
      b64Index_b64Char _ (by omega), b64Index_b64Char _ (by omega),
      b64Index_b64Char _ (by omega)]
    have h1 : a / 4 * 4 + (a % 4 * 16 + b / 16) / 16 = a := by omega
    have h2 : (a % 4 * 16 + b / 16) % 16 * 16 + b % 16 * 4 / 4 = b := by omega
    rw [h1, h2]
  | case4 a b c rest ih =>
    have ha : a < 256 := h a (by simp)
    have hb : b < 256 := h b (by simp)
    have hc : c < 256 := h c (by simp)
    rw [b64EncodeBytes, b64DecodeBytes.eq_def]
    dsimp only
    rw [if_neg (b64Char_ne_pad _ (by omega)), if_neg (b64Char_ne_pad _ (by omega)),
      b64Index_b64Char _ (by omega), b64Index_b64Char _ (by omega),
      b64Index_b64Char _ (by omega), b64Index_b64Char _ (by omega)]
    have h1 : a / 4 * 4 + (a % 4 * 16 + b / 16) / 16 = a := by omega
    have h2 : (a % 4 * 16 + b / 16) % 16 * 16 + (b % 16 * 4 + c / 64) / 4 = b := by
      omega
    have h3 : (b % 16 * 4 + c / 64) % 4 * 64 + c % 64 = c := by omega
    rw [h1, h2, h3, ih (fun x hx => h x (by simp [hx]))]

/-! ## `encodeBase64` / `decodeBase64`
(`src/services/geminiService.ts` lines 65–85) -/

/-- `encodeBase64`: UTF-8 bytes of the string, then Base64
(`TextEncoder` + `btoa`). -/
def encodeBase64 (s : String) : String :=
  String.mk (b64EncodeBytes (utf8Encode s))

/-- `decodeBase64`: Base64 to bytes, then UTF-8 decode
(`atob` + `TextDecoder`); lenient on failure like the source's `try/catch`. -/
def decodeBase64 (s : String) : String :=
  String.mk (utf8Decode (b64DecodeBytes s.data))

theorem utf8Encode_lt (s : String) : ∀ b ∈ utf8Encode s, b < 256 := by
  intro b hb
  simp only [utf8Encode, List.mem_flatMap] at hb
  obtain ⟨c, _, hc⟩ := hb
  exact utf8EncodeChar_lt c b hc

/-- **C2.** Decoding the Base64 encoding of any string (any sequence of
Unicode scalar values, multi-byte characters included) gives the string
back exactly. -/
theorem decodeBase64_encodeBase64 (s : String) :
    decodeBase64 (encodeBase64 s) = s := by
  show String.mk (utf8Decode (b64DecodeBytes (b64EncodeBytes (utf8Encode s)))) = s
  rw [b64DecodeBytes_encodeBytes _ (utf8Encode_lt s)]
  show String.mk (utf8Decode (s.data.flatMap utf8EncodeChar)) = s
  rw [utf8Decode_flatMap]

/-! ## `prepareSqlParameters` (`src/services/geminiService.ts` lines 91–127)

Step 0 sanitises the SQL, step 1 wraps it with the row limit, step 2
Base64-encodes it, step 3 splits it into `CHUNK_SIZE` chunks `q1`…`q9`. -/

/-- Whitespace for JS `String.prototype.trim`: the ASCII whitespace
characters plus the Unicode space separators, NBSP, BOM and the line/paragraph
separators. -/
def jsIsWhitespace (c : Char) : Bool :=
  c = ' ' || c = '\t' || c = '\n' || c = '\r' ||
  c.toNat = 11 || c.toNat = 12 || c.toNat = 160 || c.toNat = 5760 ||
  (8192 ≤ c.toNat && c.toNat ≤ 8202) || c.toNat = 8232 ||
  c.toNat = 8233 || c.toNat = 8239 || c.toNat = 8287 ||
  c.toNat = 12288 || c.toNat = 65279

/-- JS `String.prototype.trim`: strip leading and trailing whitespace. -/
def jsTrim (s : String) : String :=
  String.mk (((s.data.dropWhile jsIsWhitespace).reverse.dropWhile
    jsIsWhitespace).reverse)

/-- Step 0: `sql.trim()`, then `slice(0, -1)` when the trimmed SQL ends
with `;` (checked here on the last character, which for the ASCII `;` agrees
with `endsWith(';')`). -/
def sanitizeSql (sql : String) : String :=
  let t := jsTrim sql
  if t.data.getLast? = some ';' then String.mk t.data.dropLast else t

/-- Step 1: wrap with the dynamic row limit. -/
def wrapSql (cleanSql : String) (rowLimit : Int) : String :=
  "SELECT * FROM (" ++ cleanSql ++ ") WHERE rownum <= " ++ toString rowLimit

/-- Step 3, the chunking loop: `slots` counts the parameter slots still free
(9 at the start; the loop breaks once `chunkIndex >= 9`), each iteration takes
`substring(i, i + CHUNK_SIZE)`. -/
def splitChunks : Nat → List Char → List (List Char)
  | 0, _ => []
  | _ + 1, [] => []
  | k + 1, c :: cs =>
    (c :: cs).take CHUNK_SIZE :: splitChunks k ((c :: cs).drop CHUNK_SIZE)

/-- The `(paramName, chunk)` pairs produced by the loop of
`prepareSqlParameters`, in emission order: chunk `i` (0-based) is named
`q(i+1)`. -/
def prepareSqlChunks (sql : String) (rowLimit : Int) : List (String × String) :=
  let cleanSql := sanitizeSql sql
  let wrappedSql := wrapSql cleanSql rowLimit
  let base64Sql := encodeBase64 wrappedSql
  (splitChunks 9 base64Sql.data).enum.map
    (fun p => ("q" ++ toString (p.1 + 1), String.mk p.2))

/-- The XML text emitted for one chunk (the `paramXml +=` template). -/
def renderParamItem (paramName chunk : String) : String :=
  "\n        <v2:item>\n            <v2:name>" ++ paramName ++
    "</v2:name>\n            <v2:values>\n                <v2:item>" ++ chunk ++
    "</v2:item>\n            </v2:values>\n        </v2:item>"

/-- `prepareSqlParameters`: the concatenated parameter XML. -/
def prepareSqlParameters (sql : String) (rowLimit : Int) : String :=
  (prepareSqlChunks sql rowLimit).foldl
    (fun acc p => acc ++ renderParamItem p.1 p.2) ""

theorem splitChunks_flatten (k : Nat) (s : List Char) :
    (splitChunks k s).flatten = s.take (k * CHUNK_SIZE) := by
  induction k generalizing s with
  | zero => simp [splitChunks]
  | succ k ih =>
    cases s with
    | nil => simp [splitChunks]
    | cons c cs =>
      rw [splitChunks, List.flatten_cons, ih,
        show (k + 1) * CHUNK_SIZE = CHUNK_SIZE + k * CHUNK_SIZE by ring,
        List.take_add]

theorem splitChunks_length (k : Nat) (s : List Char) :
    (splitChunks k s).length = min ((s.length + CHUNK_SIZE - 1) / CHUNK_SIZE) k := by
  induction k generalizing s with
  | zero => simp [splitChunks]
  | succ k ih =>
    cases s with
    | nil => simp [splitChunks, CHUNK_SIZE]
    | cons c cs =>
      rw [splitChunks, List.length_cons, ih, List.length_drop]
      simp only [List.length_cons, CHUNK_SIZE]
      omega

theorem splitChunks_getElemOpt (k : Nat) (s : List Char) (i : Nat)
    (h : i < (splitChunks k s).length) :
    (splitChunks k s)[i]? = some ((s.drop (i * CHUNK_SIZE)).take CHUNK_SIZE) := by
  induction k generalizing s i with
  | zero => simp [splitChunks] at h
  | succ k ih =>
    cases s with
    | nil => simp [splitChunks] at h
    | cons c cs =>
      rw [splitChunks]
      cases i with
      | zero => rw [List.getElem?_cons_zero, Nat.zero_mul, List.drop_zero]
      | succ i =>
        rw [List.getElem?_cons_succ]
        rw [splitChunks, List.length_cons] at h
        rw [ih _ i (by omega), List.drop_drop,
          show CHUNK_SIZE + i * CHUNK_SIZE = (i + 1) * CHUNK_SIZE by ring]

theorem splitChunks_mem_length (k : Nat) (s : List Char) :
    ∀ ch ∈ splitChunks k s, ch.length ≤ CHUNK_SIZE := by
  induction k generalizing s with
  | zero =>
    intro ch hch
    simp [splitChunks] at hch
  | succ k ih =>
    intro ch hch
    cases s with
    | nil => simp [splitChunks] at hch
    | cons c cs =>
      rw [splitChunks] at hch
      rcases List.mem_cons.mp hch with rfl | hch
      · simp [List.length_take]
      · exact ih _ ch hch

theorem take_min_length (l : List Char) (k : Nat) :
    l.take (min l.length k) = l.take k := by
  rcases Nat.le_total l.length k with h | h
  · rw [Nat.min_eq_left h, List.take_of_length_le h,
      List.take_of_length_le (Nat.le_refl _)]
  · rw [Nat.min_eq_right h]

/-- **C1.** For every SQL string and row limit, writing `b64` for the Base64
encoding of the wrapped SQL (length `N = b64.length`): the emitted chunk list
has exactly `min (⌈N / 32767⌉) 9` entries; the chunk at 0-based index `i` is
the slice of `b64` starting at offset `i * 32767` of at most 32767
characters, named `q(i+1)`; concatenating the chunks in order reproduces the
first `min N (9 * 32767)` characters of `b64`; the function is total, so
input beyond the 9th chunk is dropped without any error. -/
theorem prepareSqlChunks_spec (sql : String) (rowLimit : Int) :
    (prepareSqlChunks sql rowLimit).length =
      min (((encodeBase64 (wrapSql (sanitizeSql sql) rowLimit)).data.length +
        CHUNK_SIZE - 1) / CHUNK_SIZE) 9 ∧
    (∀ i : Nat, i < (prepareSqlChunks sql rowLimit).length →
      (prepareSqlChunks sql rowLimit)[i]? =
        some ("q" ++ toString (i + 1),
          String.mk (((encodeBase64 (wrapSql (sanitizeSql sql) rowLimit)).data.drop
            (i * CHUNK_SIZE)).take CHUNK_SIZE))) ∧
    ((prepareSqlChunks sql rowLimit).map (fun p => p.2.data)).flatten =
      (encodeBase64 (wrapSql (sanitizeSql sql) rowLimit)).data.take
        (min (encodeBase64 (wrapSql (sanitizeSql sql) rowLimit)).data.length
          (9 * CHUNK_SIZE)) ∧
    (∀ p ∈ prepareSqlChunks sql rowLimit, p.2.data.length ≤ CHUNK_SIZE) := by
  set b64 := (encodeBase64 (wrapSql (sanitizeSql sql) rowLimit)).data with hb
  have hpc : prepareSqlChunks sql rowLimit =
      (splitChunks 9 b64).enum.map
        (fun p => ("q" ++ toString (p.1 + 1), String.mk p.2)) := rfl
  refine ⟨?_, ?_, ?_, ?_⟩
  · rw [hpc, List.length_map, List.enum_length, splitChunks_length]
  · intro i h
    rw [hpc] at h ⊢
    rw [List.length_map, List.enum_length] at h
    have hx := splitChunks_getElemOpt 9 b64 i h
    rw [List.getElem?_eq_getElem h] at hx
    rw [Option.some.injEq] at hx
    rw [List.getElem?_eq_getElem (by simp [List.enum_length, h] : i <
      ((splitChunks 9 b64).enum.map
        (fun p => ("q" ++ toString (p.1 + 1), String.mk p.2))).length)]
    simp only [List.getElem_map, List.getElem_enum]
    rw [hx]
  · rw [hpc, List.map_map]
    have hcomp : ((fun p : String × String => p.2.data) ∘
        (fun p : Nat × List Char => ("q" ++ toString (p.1 + 1), String.mk p.2)))
        = fun p : Nat × List Char => p.2 := rfl
    rw [hcomp, List.enum_map_snd, splitChunks_flatten, take_min_length]
  · intro p hp
    rw [hpc] at hp
    simp only [List.mem_map] at hp
    obtain ⟨⟨i, ch⟩, hmem, rfl⟩ := hp
    have hch : ch ∈ splitChunks 9 b64 := by
      rw [← List.enum_map_snd (splitChunks 9 b64)]
      exact List.mem_map_of_mem _ hmem
    exact splitChunks_mem_length 9 b64 ch hch

/-- Witness for C1 at a concrete input: the per-chunk conjunct applied to
`"SELECT 1"`, limit `10`, chunk index `0`. -/
theorem prepareSqlChunks_spec_witness :
    (prepareSqlChunks "SELECT 1" 10)[0]? =
      some ("q" ++ toString (0 + 1),
        String.mk (((encodeBase64 (wrapSql (sanitizeSql "SELECT 1") 10)).data.drop
          (0 * CHUNK_SIZE)).take CHUNK_SIZE)) :=
  (prepareSqlChunks_spec "SELECT 1" 10).2.1 0 (by decide)

/-- **C6.** Sanitisation trims surrounding whitespace and strips exactly one
trailing semicolon when present (appending `;` back to the sanitised SQL
recovers the trimmed input); when the trimmed SQL does not end in `;` it is
left unchanged; the wrapped statement is exactly
`SELECT * FROM (<sanitized sql>) WHERE rownum <= <rowLimit>`. -/
theorem sanitizeSql_spec (sql : String) (rowLimit : Int) :
    ((jsTrim sql).data.getLast? = some ';' →
      sanitizeSql sql ++ ";" = jsTrim sql) ∧
    ((jsTrim sql).data.getLast? ≠ some ';' →
      sanitizeSql sql = jsTrim sql) ∧
    wrapSql (sanitizeSql sql) rowLimit =
      "SELECT * FROM (" ++ sanitizeSql sql ++ ") WHERE rownum <= " ++
        toString rowLimit := by
  refine ⟨?_, ?_, rfl⟩
  · intro h
    apply String.ext
    simp only [sanitizeSql]
    rw [if_pos h]
    show (jsTrim sql).data.dropLast ++ [';'] = (jsTrim sql).data
    obtain ⟨l', hl⟩ := List.getLast?_eq_some_iff.mp h
    rw [hl, List.dropLast_concat]
  · intro h
    simp only [sanitizeSql]
    rw [if_neg h]

/-- Witness for C6: both spec examples, `"SELECT 1;"` (semicolon stripped,
appending it back recovers the input) and `"SELECT 1"` (unchanged). -/
theorem sanitizeSql_spec_witness :
    (sanitizeSql "SELECT 1;" ++ ";" = jsTrim "SELECT 1;") ∧
    sanitizeSql "SELECT 1" = jsTrim "SELECT 1" :=
  ⟨(sanitizeSql_spec "SELECT 1;" 100).1 (by decide),
   (sanitizeSql_spec "SELECT 1" 100).2.1 (by decide)⟩

/-! ## Row-limit coercion (`src/unnamed/part_000`, the row-limit input)

The application shell feeds the SOAP layer
`parseInt(e.target.value) || 100`. -/

/-- Digit accumulation of `parseInt`. -/
def digitsToNat (ds : List Char) : Nat :=
  ds.foldl (fun a c => a * 10 + (c.toNat - 48)) 0

/-- Model of JS `parseInt` on base-10 input: skip leading whitespace, read an
optional sign and then the longest digit run, ignoring anything after it;
`none` models `NaN` (no digits).  The `0x` radix prefix is not modelled. -/
def jsParseInt (s : String) : Option Int :=
  match s.data.dropWhile jsIsWhitespace with
  | '-' :: rest =>
    let ds := rest.takeWhile Char.isDigit
    if ds.isEmpty then none else some (-(digitsToNat ds : Int))
  | '+' :: rest =>
    let ds := rest.takeWhile Char.isDigit
    if ds.isEmpty then none else some ((digitsToNat ds : Int))
  | t =>
    let ds := t.takeWhile Char.isDigit
    if ds.isEmpty then none else some ((digitsToNat ds : Int))

/-- The row-limit `onChange` handler: `parseInt(e.target.value) || 100`
(`NaN` and `0` are falsy, so both fall back to 100). -/
def rowLimitCoerce (s : String) : Int :=
  match jsParseInt s with
  | none => 100
  | some n => if n = 0 then 100 else n

/-- **C7 (amended).** A non-numeric row-limit input (`parseInt` gives `NaN`)
is coerced to the default 100, and so is a literal `0`; but any other
numeric value — negative values included — is passed through unchanged, so
the wrapped statement is *not* always guaranteed a positive limit. -/
theorem rowLimitCoerce_spec (s : String) :
    (jsParseInt s = none → rowLimitCoerce s = 100) ∧
    (jsParseInt s = some 0 → rowLimitCoerce s = 100) ∧
    (∀ n : Int, jsParseInt s = some n → n ≠ 0 → rowLimitCoerce s = n) := by
  refine ⟨?_, ?_, ?_⟩
  · intro h
    simp [rowLimitCoerce, h]
  · intro h
    simp [rowLimitCoerce, h]
  · intro n h hn
    simp [rowLimitCoerce, h, hn]

/-- Witness for C7 (amended): `"abc"` coerces to 100, `"25"` passes
through. -/
theorem rowLimitCoerce_spec_witness :
    rowLimitCoerce "abc" = 100 ∧ rowLimitCoerce "25" = 25 :=
  ⟨(rowLimitCoerce_spec "abc").1 (by decide),
   (rowLimitCoerce_spec "25").2.2 25 (by decide) (by decide)⟩

/-- **C7 counterexample.** `parseInt` on the numeric input `"-5"` succeeds
with a negative value, which `|| 100` passes through: the wrapped statement
then carries the non-positive limit `-5`, refuting the claim that the
wrapped statement always carries a positive integer limit. -/
theorem rowLimitCoerce_counterexample :
    rowLimitCoerce "-5" = -5 ∧ ¬ (0 < rowLimitCoerce "-5") ∧
    wrapSql (sanitizeSql "SELECT 1") (rowLimitCoerce "-5") =
      "SELECT * FROM (SELECT 1) WHERE rownum <= -5" := by
  refine ⟨by decide, by decide, by decide⟩

/-! ## Substring search

`String.includes`, `String.replace` (string pattern) and the
`<faultstring>` regex all reduce to finding the first occurrence of a plain
pattern; `splitOnFirst` returns the text before the first occurrence and the
text after it. -/

/-- `hasLead pat s`: `s` starts with `pat`. -/
def hasLead : List Char → List Char → Bool
  | [], _ => true
  | _ :: _, [] => false
  | p :: ps, c :: cs => p == c && hasLead ps cs

/-- Split `s` around the first occurrence of `pat`:
`some (before, after)`, or `none` when `pat` does not occur. -/
def splitOnFirst (pat : List Char) : List Char → Option (List Char × List Char)
  | [] => if hasLead pat [] then some ([], []) else none
  | c :: cs =>
    if hasLead pat (c :: cs) then some ([], (c :: cs).drop pat.length)
    else
      match splitOnFirst pat cs with
      | some (pre, post) => some (c :: pre, post)
      | none => none

/-- JS `String.includes`. -/
def containsSub (s pat : String) : Bool :=
  (splitOnFirst pat.data s.data).isSome

theorem hasLead_iff (p : List Char) : ∀ s : List Char,
    hasLead p s = true ↔ ∃ t, s = p ++ t := by
  induction p with
  | nil =>
    intro s
    simp [hasLead]
  | cons a ps ih =>
    intro s
    cases s with
    | nil =>
      simp [hasLead]
    | cons c cs =>
      rw [hasLead]
      simp only [Bool.and_eq_true, beq_iff_eq, ih cs]
      constructor
      · rintro ⟨rfl, t, rfl⟩
        exact ⟨t, rfl⟩
      · rintro ⟨t, ht⟩
        rw [List.cons_append] at ht
        injection ht with h1 h2
        exact ⟨h1.symm, t, h2⟩

theorem splitOnFirst_some (pat : List Char) : ∀ s pre post : List Char,
    splitOnFirst pat s = some (pre, post) →
    s = pre ++ pat ++ post ∧
    ∀ p q : List Char, s = p ++ pat ++ q → pre.length ≤ p.length := by
  intro s
  induction s with
  | nil =>
    intro pre post h
    rw [splitOnFirst] at h
    split at h
    · next hl =>
      obtain ⟨t, ht⟩ := (hasLead_iff pat []).mp hl
      rcases List.append_eq_nil.mp ht.symm with ⟨rfl, rfl⟩
      injection h with h
      injection h with h1 h2
      subst h1
      subst h2
      exact ⟨rfl, fun p q _ => Nat.zero_le _⟩
    · exact absurd h (by simp)
  | cons c cs ih =>
    intro pre post h
    rw [splitOnFirst] at h
    split at h
    · next hl =>
      obtain ⟨t, ht⟩ := (hasLead_iff pat (c :: cs)).mp hl
      injection h with h
      injection h with h1 h2
      subst h1
      subst h2
      constructor
      · conv_lhs => rw [ht]
        rw [List.nil_append, ht, List.drop_left]
      · intro p q _
        exact Nat.zero_le _
    · next hl =>
      revert h
      cases hsplit : splitOnFirst pat cs with
      | none => intro h; exact absurd h (by simp)
      | some pp =>
        obtain ⟨pre1, post1⟩ := pp
        obtain ⟨heq, hmin⟩ := ih pre1 post1 hsplit
        intro h
        injection h with h
        injection h with h1 h2
        subst h1
        subst h2
        constructor
        · rw [List.cons_append, List.cons_append, ← heq]
        · intro p q hpq
          cases p with
          | nil =>
            exfalso
            rw [List.nil_append] at hpq
            exact absurd ((hasLead_iff pat (c :: cs)).mpr ⟨q, hpq⟩) (by
              simp [hl])
          | cons x xs =>
            rw [List.cons_append, List.cons_append] at hpq
            injection hpq with h1 h2
            rw [List.length_cons, List.length_cons]
            exact Nat.succ_le_succ (hmin xs q (by rw [h2]))

/-- An occurrence inside a suffix survives prepending: used to show a second
placeholder occurrence is still present after the first is replaced. -/
theorem splitOnFirst_isSome_append (pat : List Char) (x : List Char)
    (s : List Char) (h : (splitOnFirst pat s).isSome = true) :
    (splitOnFirst pat (x ++ s)).isSome = true := by
  induction x with
  | nil => exact h
  | cons c cs ih =>
    rw [List.cons_append, splitOnFirst]
    split
    · simp
    · revert ih
      cases hsplit : splitOnFirst pat (cs ++ s) with
      | none =>
        intro ih
        simp at ih
      | some pp =>
        intro _
        simp

/-! ## URL and proxy resolution
(`src/services/geminiService.ts` lines 221–249) -/

/-- Step 3 of `executeSoapQuery`: trim the connection URL and append
`REPORT_SERVICE_PATH` (stripping one trailing `/`) unless the URL already
contains `"/xmlpserver"`. -/
def resolveTargetUrl (url : String) : String :=
  let targetUrl := jsTrim url
  if containsSub targetUrl "/xmlpserver" then targetUrl
  else
    let base := if targetUrl.data.getLast? = some '/' then
      String.mk targetUrl.data.dropLast else targetUrl
    base ++ REPORT_SERVICE_PATH

/-- Step 4 of `executeSoapQuery`: CORS-proxy handling.  The literal proxy
`https://corsproxy.io` becomes `https://corsproxy.io/?`; any other proxy
gains a trailing `/` unless it already ends in `?`, `=` or `/`; the fetch
URL is the proxy followed by the full target URL, raw concatenation.  An
empty (or whitespace) proxy string models an unset `corsProxy`. -/
def resolveFetchUrl (url corsProxy : String) : String :=
  let targetUrl := resolveTargetUrl url
  if 0 < (jsTrim corsProxy).data.length then
    let proxy0 := jsTrim corsProxy
    let proxy1 := if proxy0 = "https://corsproxy.io" then
      ("https://corsproxy.io/?" : String) else proxy0
    let proxy2 := if proxy1.data.getLast? ≠ some '?' ∧
        proxy1.data.getLast? ≠ some '=' ∧
        proxy1.data.getLast? ≠ some '/' then proxy1 ++ "/" else proxy1
    proxy2 ++ targetUrl
  else targetUrl

/-- **C8.** Base URL: when it does not contain `"/xmlpserver"`, one trailing
slash is stripped and the fixed report-service path appended.  Proxy: the
literal `https://corsproxy.io` is special-cased to gain `?`; any other
configured proxy gains a trailing `/` unless it ends in `?`, `=` or `/`; the
fetch URL is always the proxy string concatenated directly with the full
target URL (no URL-encoding). -/
theorem resolveFetchUrl_spec (url corsProxy : String) :
    (containsSub (jsTrim url) "/xmlpserver" = false →
      ((jsTrim url).data.getLast? = some '/' →
        resolveTargetUrl url =
          String.mk (jsTrim url).data.dropLast ++ REPORT_SERVICE_PATH) ∧
      ((jsTrim url).data.getLast? ≠ some '/' →
        resolveTargetUrl url = jsTrim url ++ REPORT_SERVICE_PATH)) ∧
    (jsTrim corsProxy = "https://corsproxy.io" →
      resolveFetchUrl url corsProxy =
        "https://corsproxy.io/?" ++ resolveTargetUrl url) ∧
    (0 < (jsTrim corsProxy).data.length →
      jsTrim corsProxy ≠ "https://corsproxy.io" →
      ((jsTrim corsProxy).data.getLast? = some '?' ∨
       (jsTrim corsProxy).data.getLast? = some '=' ∨
       (jsTrim corsProxy).data.getLast? = some '/') →
      resolveFetchUrl url corsProxy = jsTrim corsProxy ++ resolveTargetUrl url) ∧
    (0 < (jsTrim corsProxy).data.length →
      jsTrim corsProxy ≠ "https://corsproxy.io" →
      ¬ ((jsTrim corsProxy).data.getLast? = some '?' ∨
         (jsTrim corsProxy).data.getLast? = some '=' ∨
         (jsTrim corsProxy).data.getLast? = some '/') →
      resolveFetchUrl url corsProxy =
        (jsTrim corsProxy ++ "/") ++ resolveTargetUrl url) := by
  refine ⟨?_, ?_, ?_, ?_⟩
  · intro hurl
    constructor
    · intro hslash
      simp only [resolveTargetUrl]
      rw [if_neg (by simp [hurl]), if_pos hslash]
    · intro hslash
      simp only [resolveTargetUrl]
      rw [if_neg (by simp [hurl]), if_neg hslash]
  · intro hproxy
    simp only [resolveFetchUrl]
    rw [if_pos (by rw [hproxy]; decide), if_pos hproxy,
      if_neg (by decide)]
  · intro hlen hne hend
    simp only [resolveFetchUrl]
    rw [if_pos hlen, if_neg hne, if_neg (by tauto)]
  · intro hlen hne hend
    simp only [resolveFetchUrl]
    rw [if_pos hlen, if_neg hne, if_pos (by tauto)]

/-- Witness for C8: the spec's example — proxy `https://corsproxy.io` with a
target already containing `/xmlpserver` concatenates as
`https://corsproxy.io/?<target>`. -/
theorem resolveFetchUrl_spec_witness :
    resolveFetchUrl "https://h.example.com/xmlpserver/services/v2/ReportService"
        "https://corsproxy.io" =
      "https://corsproxy.io/?" ++
        resolveTargetUrl "https://h.example.com/xmlpserver/services/v2/ReportService" :=
  (resolveFetchUrl_spec "https://h.example.com/xmlpserver/services/v2/ReportService"
    "https://corsproxy.io").2.1 (by decide)

/-! ## SOAP body construction
(`src/services/geminiService.ts` lines 190–218) -/

/-- One step of JS GetSubstitution over the replacement string: `$$` emits
`$`, `$&` the matched text, a `$`-backquote the text before the match, a
`$`-apostrophe the text after it; a `$` followed by anything else (there are
no capture groups for a string pattern, so `$1`, `$<`, ... stay literal) or a
lone trailing `$` is literal, as is any other character.  Returns the emitted
text and the rest of the replacement. -/
def expandStep (matched pre post : List Char) : List Char → List Char × List Char
  | [] => ([], [])
  | c :: rest =>
    if c = '$' then
      match rest with
      | [] => (['$'], [])
      | c2 :: rest2 =>
        if c2 = '$' then (['$'], rest2)
        else if c2 = '&' then (matched, rest2)
        else if c2 = '\x60' then (pre, rest2)
        else if c2 = '\x27' then (post, rest2)
        else (['$'], c2 :: rest2)
    else ([c], rest)

/-- Iterated `$`-expansion with a step budget (each step consumes at least
one character, so the input length is budget enough). -/
def expandDollarAux (matched pre post : List Char) : Nat → List Char → List Char
  | 0, _ => []
  | _ + 1, [] => []
  | fuel + 1, c :: rest =>
    (expandStep matched pre post (c :: rest)).1 ++
      expandDollarAux matched pre post fuel
        (expandStep matched pre post (c :: rest)).2

/-- JS GetSubstitution: the replacement text with `$`-sequences expanded
against the match (`matched` = the string pattern, `pre`/`post` = the text
before/after the first occurrence). -/
def expandDollar (matched pre post rep : List Char) : List Char :=
  expandDollarAux matched pre post rep.length rep

/-- Model of JS `String.replace` with a plain-string pattern: replace the
first occurrence only, inserting the replacement with `$`-substitution
applied (`expandDollar`). -/
def replaceFirst (s pat rep : String) : String :=
  match splitOnFirst pat.data s.data with
  | none => s
  | some (pre, post) =>
    String.mk (pre ++ expandDollar pat.data pre post rep.data ++ post)

theorem expandStep_no_dollar (m p q : List Char) (c : Char) (rest : List Char)
    (h : c ≠ '$') : expandStep m p q (c :: rest) = ([c], rest) := by
  rw [expandStep.eq_def]
  dsimp only
  rw [if_neg h]

theorem expandDollarAux_no_dollar (m p q : List Char) : ∀ (rep : List Char)
    (fuel : Nat), rep.length ≤ fuel → '$' ∉ rep →
    expandDollarAux m p q fuel rep = rep := by
  intro rep
  induction rep with
  | nil =>
    intro fuel _ _
    cases fuel with
    | zero => rfl
    | succ f => rfl
  | cons c rest ih =>
    intro fuel hlen hdol
    have hc : c ≠ '$' := fun hc =>
      hdol (hc ▸ List.mem_cons_self c rest)
    have hrest : '$' ∉ rest := fun hr => hdol (List.mem_cons_of_mem c hr)
    cases fuel with
    | zero => simp at hlen
    | succ f =>
      rw [expandDollarAux, expandStep_no_dollar m p q c rest hc]
      dsimp only
      rw [ih f (by simpa using hlen) hrest, List.singleton_append]

theorem expandDollar_no_dollar (m p q rep : List Char) (h : '$' ∉ rep) :
    expandDollar m p q rep = rep :=
  expandDollarAux_no_dollar m p q rep rep.length (Nat.le_refl _) h

/-- The hard-coded default envelope of the `else` branch (template-literal
interpolation as concatenation). -/
def defaultSoapEnvelope (username password parametersXml : String) : String :=
  "<soapenv:Envelope xmlns:soapenv=\"http://schemas.xmlsoap.org/soap/envelope/\" xmlns:v2=\"http://xmlns.oracle.com/oxp/service/v2\">\n        <soapenv:Header/>\n        <soapenv:Body>\n            <v2:runReport>\n                <v2:reportRequest>\n                    <v2:attributeFormat>xml</v2:attributeFormat>\n                    <v2:byPassCache>True</v2:byPassCache>\n                    <v2:flattenXML>True</v2:flattenXML>\n                    <v2:reportAbsolutePath>/Custom/Human Capital Management/FusionSQLtoolTest1/FSTreport_2.xdo</v2:reportAbsolutePath>\n                    <v2:parameterNameValues>\n                       <v2:listOfParamNameValues>\n                          " ++
    parametersXml ++
    "\n                       </v2:listOfParamNameValues>\n                    </v2:parameterNameValues>\n                </v2:reportRequest>\n                <v2:userID>" ++
    username ++ "</v2:userID>\n                <v2:password>" ++ password ++
    "</v2:password>\n            </v2:runReport>\n        </soapenv:Body>\n      </soapenv:Envelope>"

/-- Step 2 of `executeSoapQuery`: when the template contains the parameters
placeholder, substitute the three placeholder tokens by `String.replace`
(first occurrence each); otherwise use the default envelope. -/
def buildSoapBody (soapTemplate username password parametersXml : String) :
    String :=
  if containsSub soapTemplate "\x7b\x7bPARAMETERS\x7d\x7d" then
    replaceFirst (replaceFirst (replaceFirst soapTemplate
      "\x7b\x7bUSERNAME\x7d\x7d" username)
      "\x7b\x7bPASSWORD\x7d\x7d" password)
      "\x7b\x7bPARAMETERS\x7d\x7d" parametersXml
  else defaultSoapEnvelope username password parametersXml

/-- **C9.** Template substitution replaces only the *first* occurrence of a
placeholder token: when the first occurrence of `pat` in `t` splits it as
`pre ++ pat ++ post`, the result is `pre ++ <expanded replacement> ++ post`,
where the replacement undergoes JS `$`-substitution (and is inserted
literally whenever it contains no `$`, the case of the placeholder
substitutions with ordinary credentials); `post` is copied verbatim, so any
later occurrence of the token (an occurrence inside `post`) survives in the
output; and when the template contains the parameters placeholder, the body
is exactly the three chained first-occurrence replacements. -/
theorem replaceFirst_spec (t pat rep : String) (pre post : List Char)
    (h : splitOnFirst pat.data t.data = some (pre, post)) :
    t.data = pre ++ pat.data ++ post ∧
    (replaceFirst t pat rep).data =
      pre ++ expandDollar pat.data pre post rep.data ++ post ∧
    ('$' ∉ rep.data →
      (replaceFirst t pat rep).data = pre ++ rep.data ++ post) ∧
    (∀ p q : List Char, t.data = p ++ pat.data ++ q → pre.length ≤ p.length) ∧
    ((splitOnFirst pat.data post).isSome = true →
      (splitOnFirst pat.data (replaceFirst t pat rep).data).isSome = true) ∧
    (∀ tmpl user pass params : String,
      containsSub tmpl "\x7b\x7bPARAMETERS\x7d\x7d" = true →
      buildSoapBody tmpl user pass params =
        replaceFirst (replaceFirst (replaceFirst tmpl
          "\x7b\x7bUSERNAME\x7d\x7d" user) "\x7b\x7bPASSWORD\x7d\x7d" pass)
          "\x7b\x7bPARAMETERS\x7d\x7d" params) := by
  obtain ⟨heq, hmin⟩ := splitOnFirst_some pat.data t.data pre post h
  have hdata : (replaceFirst t pat rep).data =
      pre ++ expandDollar pat.data pre post rep.data ++ post := by
    simp only [replaceFirst, h]
  refine ⟨heq, hdata, ?_, hmin, ?_, ?_⟩
  · intro hdol
    rw [hdata, expandDollar_no_dollar _ _ _ _ hdol]
  · intro hocc
    rw [hdata, List.append_assoc]
    exact splitOnFirst_isSome_append _ pre _
      (splitOnFirst_isSome_append _ (expandDollar pat.data pre post rep.data)
        post hocc)
  · intro tmpl user pass params hc
    simp [buildSoapBody, hc]

/-- Witness for C9: a template with two occurrences of the username token
and a `$`-free replacement — only the first occurrence is replaced, the
replacement is inserted literally, and the second occurrence survives in the
copied tail. -/
theorem replaceFirst_spec_witness :
    (replaceFirst "u=\x7b\x7bUSERNAME\x7d\x7d and \x7b\x7bUSERNAME\x7d\x7d"
        "\x7b\x7bUSERNAME\x7d\x7d" "bob").data =
      ("u=").data ++ ("bob").data ++ (" and \x7b\x7bUSERNAME\x7d\x7d").data :=
  (replaceFirst_spec "u=\x7b\x7bUSERNAME\x7d\x7d and \x7b\x7bUSERNAME\x7d\x7d"
    "\x7b\x7bUSERNAME\x7d\x7d" "bob" ("u=").data
    (" and \x7b\x7bUSERNAME\x7d\x7d").data (by decide)).2.2.1 (by decide)

/-! ## `parseOracleXML` (`src/services/geminiService.ts` lines 132–174)

The DOM tree handed to the flattening loop is modelled as an element tree:
`children` is `Element.children` (element children only, matching the
`nodeType !== 1` guard being vacuous there), `name` is `nodeName` and `text`
is `textContent` (the code reads it with `|| ""`, so it is a plain string).
A row object is an insertion-ordered association list (`rowData[colName] =
colValue` updates an existing key in place and appends a new one), and the
column `Set` is an insertion-ordered list without duplicates. -/

inductive XElem where
  | mk (name : String) (children : List XElem) (text : String)

def XElem.name : XElem → String
  | .mk n _ _ => n

def XElem.children : XElem → List XElem
  | .mk _ c _ => c

def XElem.text : XElem → String
  | .mk _ _ t => t

/-- `QueryResult` from `src/types.ts` (rows as insertion-ordered association
lists). -/
structure QueryResult where
  columns : List String
  rows : List (List (String × String))
  rawXml : String
  executionTimeMs : Nat

/-- JS object assignment `rowData[colName] = colValue`: overwrite in place
when the key exists (keeping its position), append otherwise. -/
def recordInsert (r : List (String × String)) (k v : String) :
    List (String × String) :=
  if r.any (fun p => p.1 == k) then
    r.map (fun p => if p.1 == k then (k, v) else p)
  else r ++ [(k, v)]

/-- JS `Set.add`: insertion-ordered, a repeated key keeps its position. -/
def setAdd (s : List String) (k : String) : List String :=
  if k ∈ s then s else s ++ [k]

/-- The inner loop over one row element's children. -/
def buildRow (row : XElem) : List (String × String) :=
  row.children.foldl (fun acc col => recordInsert acc col.name col.text) []

/-- One iteration of the outer loop: push the flattened row, threading the
column set through the inner loop. -/
def parseRowsStep (st : List (List (String × String)) × List String)
    (row : XElem) : List (List (String × String)) × List String :=
  let rowData := row.children.foldl
    (fun rd col => (recordInsert rd.1 col.name col.text, setAdd rd.2 col.name))
    (([] : List (String × String)), st.2)
  (st.1 ++ [rowData.1], rowData.2)

/-- `parseOracleXML` on the (already parsed) inner document's root: zero
children short-circuit, then the row/column collection loop. -/
def parseOracleXML (root : XElem) (rawXml : String) : QueryResult :=
  if root.children.length = 0 then
    { columns := [], rows := [], rawXml := rawXml, executionTimeMs := 0 }
  else
    let st := root.children.foldl parseRowsStep ([], [])
    { columns := st.2, rows := st.1, rawXml := rawXml, executionTimeMs := 0 }

/-- The column set accumulated over a row list. -/
def collectColumns (init : List String) (rows : List XElem) : List String :=
  rows.foldl (fun acc row =>
    row.children.foldl (fun a col => setAdd a col.name) acc) init

/-- The key list of a row object, in property order. -/
def rowKeys (r : List (String × String)) : List String := r.map Prod.fst

/-- JS property read `rowData[k]`. -/
def lookupRec (r : List (String × String)) (k : String) : Option String :=
  (r.find? (fun p => p.1 == k)).map Prod.snd

theorem innerFold_pair (cols : List XElem) : ∀ (rd0 : List (String × String))
    (c0 : List String),
    cols.foldl (fun rd col =>
        (recordInsert rd.1 col.name col.text, setAdd rd.2 col.name)) (rd0, c0) =
      (cols.foldl (fun acc col => recordInsert acc col.name col.text) rd0,
       cols.foldl (fun a col => setAdd a col.name) c0) := by
  induction cols with
  | nil =>
    intro rd0 c0
    rfl
  | cons c cs ih =>
    intro rd0 c0
    rw [List.foldl_cons, List.foldl_cons, List.foldl_cons]
    exact ih _ _

theorem parseRows_fold (rows : List XElem) :
    ∀ (rs0 : List (List (String × String))) (c0 : List String),
    rows.foldl parseRowsStep (rs0, c0) =
      (rs0 ++ rows.map buildRow, collectColumns c0 rows) := by
  induction rows with
  | nil =>
    intro rs0 c0
    simp [collectColumns]
  | cons r rs ih =>
    intro rs0 c0
    rw [List.foldl_cons]
    have hstep : parseRowsStep (rs0, c0) r =
        (rs0 ++ [buildRow r],
         r.children.foldl (fun a col => setAdd a col.name) c0) := by
      simp only [parseRowsStep, innerFold_pair]
      rfl
    rw [hstep, ih]
    simp only [collectColumns, List.foldl_cons, List.append_assoc,
      List.singleton_append, List.map_cons]

theorem parseOracleXML_eq (root : XElem) (raw : String) :
    parseOracleXML root raw =
      if root.children.length = 0 then
        { columns := [], rows := [], rawXml := raw, executionTimeMs := 0 }
      else
        { columns := collectColumns [] root.children,
          rows := root.children.map buildRow, rawXml := raw,
          executionTimeMs := 0 } := by
  simp only [parseOracleXML]
  split
  · rfl
  · rw [parseRows_fold root.children [] []]
    rfl

theorem mem_setAdd {k a : String} {s : List String} :
    k ∈ setAdd s a ↔ k ∈ s ∨ k = a := by
  simp only [setAdd]
  split
  · next h =>
    constructor
    · exact Or.inl
    · rintro (h1 | rfl)
      · exact h1
      · exact h
  · simp [List.mem_append]

theorem mem_foldl_setAdd (l : List String) : ∀ (init : List String) (k : String),
    k ∈ l.foldl setAdd init ↔ k ∈ init ∨ k ∈ l := by
  induction l with
  | nil => simp
  | cons a as ih =>
    intro init k
    rw [List.foldl_cons, ih, mem_setAdd]
    simp only [List.mem_cons]
    tauto

theorem nodup_setAdd (s : List String) (a : String) (h : s.Nodup) :
    (setAdd s a).Nodup := by
  simp only [setAdd]
  split
  · exact h
  · next hna =>
    rw [List.nodup_append]
    exact ⟨h, List.nodup_singleton a, by
      intro x hx hxa
      rw [List.mem_singleton] at hxa
      subst hxa
      exact hna hx⟩

theorem nodup_foldl_setAdd (l : List String) : ∀ init : List String,
    init.Nodup → (l.foldl setAdd init).Nodup := by
  induction l with
  | nil => exact fun _ h => h
  | cons a as ih =>
    intro init h
    rw [List.foldl_cons]
    exact ih _ (nodup_setAdd init a h)

theorem collectColumns_eq (rows : List XElem) : ∀ init : List String,
    collectColumns init rows =
      (rows.flatMap (fun r => r.children.map XElem.name)).foldl setAdd init := by
  induction rows with
  | nil =>
    intro init
    rfl
  | cons r rs ih =>
    intro init
    simp only [collectColumns, List.foldl_cons, List.flatMap_cons,
      List.foldl_append]
    rw [show (r.children.foldl (fun a col => setAdd a col.name) init) =
        ((r.children.map XElem.name).foldl setAdd init) by
      rw [List.foldl_map]]
    exact ih _

theorem recordInsert_keys (r : List (String × String)) (k v : String) :
    rowKeys (recordInsert r k v) = setAdd (rowKeys r) k := by
  simp only [recordInsert, setAdd, rowKeys]
  by_cases h : r.any (fun p => p.1 == k) = true
  · rw [if_pos h]
    have hk : k ∈ r.map Prod.fst := by
      simp only [List.any_eq_true, beq_iff_eq] at h
      obtain ⟨p, hp, he⟩ := h
      exact List.mem_map.mpr ⟨p, hp, he⟩
    rw [if_pos hk, List.map_map]
    apply List.map_congr_left
    intro p hp
    by_cases hpk : p.1 == k
    · simp only [Function.comp_apply, if_pos hpk]
      exact (beq_iff_eq.mp hpk).symm
    · simp only [Function.comp_apply, if_neg hpk]
  · rw [if_neg h]
    have hk : k ∉ r.map Prod.fst := by
      intro hc
      obtain ⟨p, hp, he⟩ := List.mem_map.mp hc
      exact h (List.any_eq_true.mpr ⟨p, hp, beq_iff_eq.mpr he⟩)
    rw [if_neg hk, List.map_append]
    rfl

theorem buildRow_keys_fold (l : List XElem) : ∀ init : List (String × String),
    rowKeys (l.foldl (fun acc col => recordInsert acc col.name col.text) init) =
      (l.map XElem.name).foldl setAdd (rowKeys init) := by
  induction l with
  | nil =>
    intro init
    rfl
  | cons c cs ih =>
    intro init
    rw [List.foldl_cons, List.map_cons, List.foldl_cons, ih, recordInsert_keys]

theorem buildRow_keys (row : XElem) :
    rowKeys (buildRow row) = (row.children.map XElem.name).foldl setAdd [] :=
  buildRow_keys_fold row.children []

theorem lookupRec_mapReplace_ne (k v k' : String) (h : k' ≠ k) :
    ∀ ps : List (String × String),
    lookupRec (ps.map (fun p => if p.1 == k then (k, v) else p)) k' =
      lookupRec ps k' := by
  intro ps
  induction ps with
  | nil => rfl
  | cons p ps ih =>
    by_cases hp : p.1 == k
    · rw [List.map_cons, if_pos hp]
      simp only [lookupRec, List.find?_cons]
      have h1 : (k == k') = false := by
        simp only [beq_eq_false_iff_ne, ne_eq]
        exact fun hc => h hc.symm
      have h2 : (p.1 == k') = false := by
        simp only [beq_eq_false_iff_ne, ne_eq]
        rw [beq_iff_eq.mp hp]
        exact fun hc => h hc.symm
      rw [h1, h2]
      exact ih
    · rw [List.map_cons, if_neg hp]
      simp only [lookupRec, List.find?_cons]
      cases hpk : (p.1 == k') with
      | true => rfl
      | false => exact ih

theorem lookupRec_mapReplace (k v : String) : ∀ ps : List (String × String),
    ps.any (fun p => p.1 == k) = true →
    lookupRec (ps.map (fun p => if p.1 == k then (k, v) else p)) k = some v := by
  intro ps
  induction ps with
  | nil => intro h; simp at h
  | cons p ps ih =>
    intro hany
    by_cases hp : p.1 == k
    · rw [List.map_cons, if_pos hp]
      simp [lookupRec, List.find?_cons]
    · rw [List.map_cons, if_neg hp]
      simp only [lookupRec, List.find?_cons]
      rw [show (p.1 == k) = false from by simpa using hp]
      apply ih
      rw [List.any_cons] at hany
      simpa [show (p.1 == k) = false from by simpa using hp] using hany

theorem lookupRec_append_single (k v k' : String) :
    ∀ r : List (String × String),
    lookupRec (r ++ [(k, v)]) k' =
      match lookupRec r k' with
      | some w => some w
      | none => if k' = k then some v else none := by
  intro r
  induction r with
  | nil =>
    simp only [List.nil_append, lookupRec, List.find?_cons, List.find?_nil]
    by_cases h : k' = k
    · subst h
      simp
    · rw [show (k == k') = false from by simpa using fun hc => h hc.symm]
      simp [h]
  | cons p ps ih =>
    simp only [List.cons_append, lookupRec, List.find?_cons]
    cases hpk : (p.1 == k') with
    | true => rfl
    | false => exact ih

theorem lookupRec_recordInsert (r : List (String × String)) (k v k' : String) :
    lookupRec (recordInsert r k v) k' =
      if k' = k then some v else lookupRec r k' := by
  simp only [recordInsert]
  by_cases hany : r.any (fun p => p.1 == k) = true
  · rw [if_pos hany]
    by_cases h : k' = k
    · subst h
      rw [if_pos rfl]
      exact lookupRec_mapReplace k' v r hany
    · rw [if_neg h]
      exact lookupRec_mapReplace_ne k v k' h r
  · rw [if_neg hany]
    rw [lookupRec_append_single]
    by_cases h : k' = k
    · subst h
      have hfind : r.find? (fun p => p.1 == k') = none := by
        rw [List.find?_eq_none]
        intro p hp hc
        exact hany (List.any_eq_true.mpr ⟨p, hp, hc⟩)
      simp [lookupRec, hfind]
    · cases hx : lookupRec r k' with
      | some w => simp [h]
      | none => simp [h]

theorem buildRow_fold_lookup (l : List XElem) (k : String) :
    ∀ init : List (String × String),
    lookupRec (l.foldl (fun acc col => recordInsert acc col.name col.text) init) k =
      match ((l.filter (fun c => c.name == k)).map XElem.text).getLast? with
      | some v => some v
      | none => lookupRec init k := by
  induction l using List.reverseRecOn with
  | nil =>
    intro init
    rfl
  | append_singleton l c ih =>
    intro init
    rw [List.foldl_append, List.foldl_cons, List.foldl_nil,
      lookupRec_recordInsert, List.filter_append, List.map_append]
    by_cases hck : (c.name == k) = true
    · rw [if_pos (beq_iff_eq.mp hck).symm]
      rw [show List.filter (fun c => c.name == k) [c] = [c] from by
        simp [List.filter, hck]]
      rw [List.map_singleton, List.getLast?_concat]
    · have hcf : (c.name == k) = false := by
        cases hx : (c.name == k) with
        | true => exact absurd hx hck
        | false => rfl
      rw [if_neg (fun hc => hck (beq_iff_eq.mpr hc.symm))]
      rw [show List.filter (fun c => c.name == k) [c] = [] from by
        simp [List.filter_singleton, hcf]]
      rw [List.map_nil, List.append_nil]
      exact ih init

theorem foldl_setAdd_extend (l : List String) : ∀ init : List String,
    ∃ t, l.foldl setAdd init = init ++ t := by
  induction l with
  | nil =>
    intro init
    exact ⟨[], (List.append_nil init).symm⟩
  | cons a as ih =>
    intro init
    by_cases h : a ∈ init
    · rw [List.foldl_cons, show setAdd init a = init from by simp [setAdd, h]]
      exact ih init
    · rw [List.foldl_cons, show setAdd init a = init ++ [a] from by
        simp [setAdd, h]]
      obtain ⟨t, ht⟩ := ih (init ++ [a])
      exact ⟨[a] ++ t, by rw [ht, List.append_assoc]⟩

theorem takeWhile_all (p : String → Bool) : ∀ l : List String,
    (∀ x ∈ l, p x = true) → l.takeWhile p = l := by
  intro l
  induction l with
  | nil => intro _; rfl
  | cons a as ih =>
    intro h
    rw [List.takeWhile_cons, h a (List.mem_cons_self a as), if_pos rfl,
      ih (fun x hx => h x (List.mem_cons_of_mem a hx))]

theorem takeWhile_ne_append (k : String) : ∀ (init t : List String),
    k ∉ init → (init ++ k :: t).takeWhile (fun c => c != k) = init := by
  intro init
  induction init with
  | nil =>
    intro t _
    rw [List.nil_append, List.takeWhile_cons]
    simp
  | cons x xs ih =>
    intro t h
    have hx : x ≠ k := fun hc => h (by rw [hc]; exact List.mem_cons_self k xs)
    rw [List.cons_append, List.takeWhile_cons,
      show (x != k) = true from by simpa using hx, if_pos rfl]
    rw [ih t (fun hc => h (List.mem_cons_of_mem x hc))]

theorem foldl_setAdd_takeWhile (k : String) : ∀ (l init : List String),
    k ∉ init →
    (l.foldl setAdd init).takeWhile (fun c => c != k) =
      (l.takeWhile (fun c => c != k)).foldl setAdd init := by
  intro l
  induction l with
  | nil =>
    intro init h
    rw [List.foldl_nil, List.takeWhile_nil, List.foldl_nil]
    refine takeWhile_all _ init (fun x hx => ?_)
    simp only [bne_iff_ne, ne_eq]
    intro hc
    exact h (hc ▸ hx)
  | cons a as ih =>
    intro init h
    by_cases hak : a = k
    · subst hak
      rw [List.foldl_cons, show setAdd init a = init ++ [a] from by
        simp [setAdd, h]]
      obtain ⟨t, ht⟩ := foldl_setAdd_extend as (init ++ [a])
      rw [ht, List.append_assoc, List.singleton_append,
        takeWhile_ne_append a init t h]
      rw [List.takeWhile_cons]
      simp
    · rw [List.foldl_cons, List.takeWhile_cons,
        show (a != k) = true from by simpa using hak, if_pos rfl,
        List.foldl_cons]
      apply ih
      intro hc
      rcases mem_setAdd.mp hc with h1 | h1
      · exact h h1
      · exact hak h1.symm

/-- **C3.** The flattening treats the root's direct child elements as rows
(`rows` is exactly `buildRow` mapped over them, in order); the column list is
the distinct child tag names over all rows in first-seen order (the
insertion-ordered set fold) and has no duplicates; each row object has
exactly the keys its element's children carry (an absent column yields no
key); every row key is in the column list; a root with zero children gives
`{columns := [], rows := []}` with the raw XML attached, not an error. -/
theorem parseOracleXML_spec (root : XElem) (rawXml : String) :
    (parseOracleXML root rawXml).rows = root.children.map buildRow ∧
    (parseOracleXML root rawXml).columns =
      (root.children.flatMap (fun r => r.children.map XElem.name)).foldl
        setAdd [] ∧
    (parseOracleXML root rawXml).rawXml = rawXml ∧
    (root.children = [] → parseOracleXML root rawXml =
      { columns := [], rows := [], rawXml := rawXml, executionTimeMs := 0 }) ∧
    (∀ row ∈ root.children, ∀ k : String,
      k ∈ rowKeys (buildRow row) ↔ k ∈ row.children.map XElem.name) ∧
    (∀ rd ∈ (parseOracleXML root rawXml).rows, ∀ kv ∈ rd,
      kv.1 ∈ (parseOracleXML root rawXml).columns) ∧
    (parseOracleXML root rawXml).columns.Nodup := by
  rw [parseOracleXML_eq]
  have hmemkeys : ∀ row ∈ root.children, ∀ k : String,
      k ∈ rowKeys (buildRow row) ↔ k ∈ row.children.map XElem.name := by
    intro row _ k
    rw [buildRow_keys, mem_foldl_setAdd]
    simp
  by_cases hempty : root.children.length = 0
  · rw [if_pos hempty]
    have hnil : root.children = [] := List.length_eq_zero.mp hempty
    rw [hnil]
    exact ⟨rfl, rfl, rfl, fun _ => rfl, by rw [hnil] at hmemkeys; exact hmemkeys,
      by intro rd hrd; simp at hrd, List.nodup_nil⟩
  · rw [if_neg hempty]
    refine ⟨rfl, ?_, rfl, fun hc => absurd (by rw [hc]; rfl) hempty, hmemkeys,
      ?_, ?_⟩
    · exact collectColumns_eq root.children []
    · intro rd hrd kv hkv
      simp only at hrd hkv ⊢
      obtain ⟨row, hrow, rfl⟩ := List.mem_map.mp hrd
      have hkey : kv.1 ∈ rowKeys (buildRow row) :=
        List.mem_map.mpr ⟨kv, hkv, rfl⟩
      have hname : kv.1 ∈ row.children.map XElem.name :=
        (hmemkeys row hrow kv.1).mp hkey
      rw [collectColumns_eq, mem_foldl_setAdd]
      right
      exact List.mem_flatMap.mpr ⟨row, hrow, hname⟩
    · simp only
      rw [collectColumns_eq]
      exact nodup_foldl_setAdd _ [] List.nodup_nil

/-- Witness for C3: the empty-root case at a concrete input — inner XML
`<ROWSET></ROWSET>` yields empty columns and rows with the raw XML attached,
not an error. -/
theorem parseOracleXML_spec_witness :
    parseOracleXML (XElem.mk "ROWSET" [] "") "<ROWSET/>" =
      { columns := [], rows := [], rawXml := "<ROWSET/>",
        executionTimeMs := 0 } :=
  (parseOracleXML_spec (XElem.mk "ROWSET" [] "") "<ROWSET/>").2.2.2.1 rfl

/-- **C10.** When a row element has several children with the same tag name,
the row object binds that column to the *last* such child's text (the JS
assignment overwrites); the column still appears exactly once in the column
list (count 1), at its first-seen position — the columns before it are
exactly the distinct names seen before the tag's first occurrence in the
traversal; and the row's key set stays inside the column list. -/
theorem parseOracleXML_duplicate_spec (root : XElem) (rawXml : String)
    (row : XElem) (k : String) (hrow : row ∈ root.children)
    (hk : k ∈ row.children.map XElem.name) :
    lookupRec (buildRow row) k =
      ((row.children.filter (fun c => c.name == k)).map XElem.text).getLast? ∧
    (parseOracleXML root rawXml).columns.count k = 1 ∧
    (parseOracleXML root rawXml).columns.takeWhile (fun c => c != k) =
      ((root.children.flatMap (fun r => r.children.map XElem.name)).takeWhile
        (fun c => c != k)).foldl setAdd [] ∧
    (∀ key ∈ rowKeys (buildRow row),
      key ∈ (parseOracleXML root rawXml).columns) := by
  have hne : ¬ root.children.length = 0 := by
    intro hc
    rw [List.length_eq_zero.mp hc] at hrow
    exact absurd hrow (List.not_mem_nil row)
  have hcols : (parseOracleXML root rawXml).columns =
      (root.children.flatMap (fun r => r.children.map XElem.name)).foldl
        setAdd [] := by
    rw [parseOracleXML_eq, if_neg hne]
    exact collectColumns_eq root.children []
  have hmem : k ∈ (parseOracleXML root rawXml).columns := by
    rw [hcols, mem_foldl_setAdd]
    right
    exact List.mem_flatMap.mpr ⟨row, hrow, hk⟩
  have hnodup : (parseOracleXML root rawXml).columns.Nodup := by
    rw [hcols]
    exact nodup_foldl_setAdd _ [] List.nodup_nil
  refine ⟨?_, ?_, ?_, ?_⟩
  · have h := buildRow_fold_lookup row.children k []
    rw [show buildRow row =
        row.children.foldl (fun acc col => recordInsert acc col.name col.text)
          [] from rfl]
    rw [h]
    cases hx : ((row.children.filter (fun c => c.name == k)).map
        XElem.text).getLast? with
    | some v => rfl
    | none => rfl
  · exact List.count_eq_one_of_mem hnodup hmem
  · rw [hcols]
    exact foldl_setAdd_takeWhile k _ [] (List.not_mem_nil k)
  · intro key hkey
    rw [hcols, mem_foldl_setAdd]
    right
    refine List.mem_flatMap.mpr ⟨row, hrow, ?_⟩
    rw [buildRow_keys, mem_foldl_setAdd] at hkey
    rcases hkey with h1 | h1
    · exact absurd h1 (List.not_mem_nil key)
    · exact h1

/-- A row element with two `A` children (values 1 then 2), for the C10
witness. -/
def dupRow : XElem :=
  XElem.mk "ROW" [XElem.mk "A" [] "1", XElem.mk "A" [] "2"] ""

/-- A root whose single row carries the duplicated tag. -/
def dupRoot : XElem := XElem.mk "ROWSET" [dupRow] ""

/-- Witness for C10 at a concrete input: in a row `<ROW><A>1</A><A>2</A></ROW>`
the mapping binds `A` to the last value, and the filtered-last form evaluates
to `some "2"`. -/
theorem parseOracleXML_duplicate_spec_witness :
    lookupRec (buildRow dupRow) "A" =
      ((dupRow.children.filter (fun c => c.name == "A")).map
        XElem.text).getLast? ∧
    ((dupRow.children.filter (fun c => c.name == "A")).map
        XElem.text).getLast? = some "2" :=
  ⟨(parseOracleXML_duplicate_spec dupRoot "" dupRow "A"
      (List.mem_singleton.mpr rfl) (by decide)).1,
   by decide⟩

/-! ## Response handling (`src/services/geminiService.ts` lines 273–309)

The HTTP response is `(ok, status, body)`.  The non-2xx path applies the
`<faultstring>(.*?)</faultstring>` regex to the raw body; the 2xx path parses
the body with `DOMParser` and probes elements by tag name.  The parsed outer
document is abstracted to what the code reads from it:
`getElementsByTagName(tag)[0].textContent`, i.e. an ordered `(tag, text)`
list — `DOMParser` itself (a browser built-in that never throws, returning a
`parsererror` document on malformed input) is not implemented; theorems
quantify over the parsed document.  Each distinct `throw` site of the decode
path is one constructor of `SoapFailure`, with `failureMessage` giving the
exact thrown message text. -/

structure HttpResponse where
  ok : Bool
  status : Nat
  body : String

/-- The decode path's `throw` sites. -/
inductive SoapFailure where
  | httpError (status : Nat) (msg : String)
  | serverFault (msg : String)
  | emptyPayload
  | malformedReportXml
deriving DecidableEq

/-- The exact message text each `throw new Error(...)` builds. -/
def failureMessage : SoapFailure → String
  | .httpError status msg =>
    "Server returned " ++ toString status ++ ": " ++ msg
  | .serverFault msg => "Oracle SOAP Fault: " ++ msg
  | .emptyPayload =>
    "No \x27reportBytes\x27 found in response. The report might have failed to generate output or the user permissions are insufficient."
  | .malformedReportXml => "Error parsing response XML from Oracle."

/-- The regex `/<faultstring>(.*?)<\/faultstring>/s` on the raw body: first
opening tag, then the shortest stretch to a closing tag (`.` crosses
newlines under `/s`, so any characters may stand between). -/
def extractFaultstring (text : String) : Option String :=
  match splitOnFirst ("<faultstring>").data text.data with
  | none => none
  | some (_, rest) =>
    match splitOnFirst ("</faultstring>").data rest with
    | none => none
    | some (mid, _) => some (String.mk mid)

/-- Lines 273–281: the `!response.ok` branch — `if (faultMatch &&
faultMatch[1])` surfaces the captured fault text only when the match exists
*and* the capture is non-empty (`""` is falsy); otherwise the raw body is
thrown, always as the `Server returned <status>: ...` error. -/
def checkHttpStatus (resp : HttpResponse) : Except SoapFailure Unit :=
  if resp.ok then Except.ok ()
  else
    match extractFaultstring resp.body with
    | some m =>
      if m = "" then Except.error (SoapFailure.httpError resp.status resp.body)
      else Except.error (SoapFailure.httpError resp.status m)
    | none => Except.error (SoapFailure.httpError resp.status resp.body)

/-- A parsed XML document, abstracted to its elements in document order:
`(tagName, textContent)` pairs. -/
structure XDoc where
  elems : List (String × String)

/-- `doc.getElementsByTagName(tag)[0].textContent` (`none` when no such
element exists). -/
def getTag (doc : XDoc) (tag : String) : Option String :=
  (doc.elems.find? (fun p => p.1 == tag)).map Prod.snd

/-- Lines 286–306 on a 2xx response: fault scan over the two tag shapes,
then the `reportBytes` probe over the three spellings (missing node or empty
text fail alike), then Base64-decoding the payload.  Returns the decoded
inner XML text. -/
def decodeSoapOk (doc : XDoc) : Except SoapFailure String :=
  match (getTag doc "faultstring").orElse (fun _ => getTag doc "soapenv:Fault") with
  | some f => Except.error (SoapFailure.serverFault f)
  | none =>
    match ((getTag doc "reportBytes").orElse
        (fun _ => getTag doc "v2:reportBytes")).orElse
        (fun _ => getTag doc "ns2:reportBytes") with
    | none => Except.error SoapFailure.emptyPayload
    | some t =>
      if t = "" then Except.error SoapFailure.emptyPayload
      else Except.ok (decodeBase64 t)

/-- Line 309 via lines 132–139: the decoded payload is parsed as the inner
XML document; a parser-error document (`none`) raises the inner-layer
malformed error, otherwise the tree is flattened. -/
def decodeInner (inner : Option XElem) (decoded : String) :
    Except SoapFailure QueryResult :=
  match inner with
  | none => Except.error SoapFailure.malformedReportXml
  | some root => Except.ok (parseOracleXML root decoded)

/-- What `DOMParser` returns for a malformed outer body: an error document
holding only a `parsererror` element — no fault and no `reportBytes`
element. -/
def malformedOuterDoc : XDoc :=
  XDoc.mk [("parsererror", "error on line 1 at column 1")]

/-- **C4 counterexample.** A non-2xx response whose body carries
`<faultstring>ORA-00001</faultstring>` fails with the HTTP-status error
(`Server returned 500: ORA-00001`), which surfaces the fault text but is not
the ServerFault error (`Oracle SOAP Fault: ...`) — so the fault does not
yield ServerFault regardless of status. -/
theorem fault_status_counterexample :
    checkHttpStatus
        (HttpResponse.mk false 500 "<faultstring>ORA-00001</faultstring>") =
      Except.error (SoapFailure.httpError 500 "ORA-00001") ∧
    checkHttpStatus
        (HttpResponse.mk false 500 "<faultstring>ORA-00001</faultstring>") ≠
      Except.error (SoapFailure.serverFault "ORA-00001") ∧
    failureMessage (SoapFailure.httpError 500 "ORA-00001") ≠
      failureMessage (SoapFailure.serverFault "ORA-00001") := by
  refine ⟨rfl, ?_, by decide⟩
  intro h
  rw [show checkHttpStatus
      (HttpResponse.mk false 500 "<faultstring>ORA-00001</faultstring>") =
      Except.error (SoapFailure.httpError 500 "ORA-00001") from rfl] at h
  injection h with h1
  cases h1

/-- **C4 (amended).** Fault handling is status-dependent: on a 2xx response
a `faultstring` element yields `ServerFault` with the fault text; on a
non-2xx response a *non-empty* `<faultstring>` capture in the body is
surfaced inside the `HttpError(status, ...)` message instead, while an empty
capture or no fault at all falls through to the raw body; a 2xx response
passes the status check. -/
theorem fault_detection_spec (resp : HttpResponse) (doc : XDoc) :
    (resp.ok = false → ∀ m : String, extractFaultstring resp.body = some m →
      m ≠ "" →
      checkHttpStatus resp = Except.error (SoapFailure.httpError resp.status m)) ∧
    (resp.ok = false → extractFaultstring resp.body = none →
      checkHttpStatus resp =
        Except.error (SoapFailure.httpError resp.status resp.body)) ∧
    (resp.ok = false → extractFaultstring resp.body = some "" →
      checkHttpStatus resp =
        Except.error (SoapFailure.httpError resp.status resp.body)) ∧
    (resp.ok = true → checkHttpStatus resp = Except.ok ()) ∧
    (∀ m : String, getTag doc "faultstring" = some m →
      decodeSoapOk doc = Except.error (SoapFailure.serverFault m)) ∧
    (∀ m : String, failureMessage (SoapFailure.serverFault m) =
      "Oracle SOAP Fault: " ++ m) := by
  refine ⟨?_, ?_, ?_, ?_, ?_, fun _ => rfl⟩
  · intro hok m hm hne
    simp [checkHttpStatus, hok, hm, hne]
  · intro hok hm
    simp [checkHttpStatus, hok, hm]
  · intro hok hm
    simp [checkHttpStatus, hok, hm]
  · intro hok
    simp [checkHttpStatus, hok]
  · intro m hm
    simp [decodeSoapOk, hm]

/-- Witness for C4 (amended): a non-2xx response with a non-empty fault
capture surfaces the fault text inside the HTTP-status error, and a 2xx
document with a fault element yields ServerFault with the fault text. -/
theorem fault_detection_spec_witness :
    checkHttpStatus (HttpResponse.mk false 500 "<faultstring>X</faultstring>") =
      Except.error (SoapFailure.httpError 500 "X") ∧
    decodeSoapOk (XDoc.mk [("faultstring", "ORA-00001")]) =
      Except.error (SoapFailure.serverFault "ORA-00001") :=
  ⟨(fault_detection_spec
      (HttpResponse.mk false 500 "<faultstring>X</faultstring>")
      (XDoc.mk [("faultstring", "ORA-00001")])).1 rfl "X" (by decide)
      (by decide),
   (fault_detection_spec
      (HttpResponse.mk false 500 "<faultstring>X</faultstring>")
      (XDoc.mk [("faultstring", "ORA-00001")])).2.2.2.2.1 "ORA-00001"
      (by decide)⟩

/-- **C5 counterexample.** A malformed outer body parses to a
`parsererror` document; the decoder never checks the outer parse, finds no
fault and no `reportBytes`, and fails with the *EmptyPayload* error — not a
distinct malformed-response failure. -/
theorem malformed_outer_counterexample :
    decodeSoapOk malformedOuterDoc = Except.error SoapFailure.emptyPayload :=
  rfl

/-- **C5 (amended).** The outer layer has no malformed-XML check: any parsed
document without fault elements and without a `reportBytes` element — a
`DOMParser` error document for a malformed body in particular — fails with
the EmptyPayload error; only the inner layer distinguishes malformed XML,
with the (distinct) MalformedReportXml error. -/
theorem malformed_outer_spec (doc : XDoc)
    (h1 : getTag doc "faultstring" = none)
    (h2 : getTag doc "soapenv:Fault" = none)
    (h3 : getTag doc "reportBytes" = none)
    (h4 : getTag doc "v2:reportBytes" = none)
    (h5 : getTag doc "ns2:reportBytes" = none) :
    decodeSoapOk doc = Except.error SoapFailure.emptyPayload ∧
    (∀ s : String, decodeInner none s =
      Except.error SoapFailure.malformedReportXml) ∧
    SoapFailure.emptyPayload ≠ SoapFailure.malformedReportXml := by
  refine ⟨?_, fun _ => rfl, by decide⟩
  simp [decodeSoapOk, h1, h2, h3, h4, h5, Option.orElse]

/-- Witness for C5 (amended), at the parser-error document itself. -/
theorem malformed_outer_spec_witness :
    decodeSoapOk malformedOuterDoc = Except.error SoapFailure.emptyPayload ∧
    (∀ s : String, decodeInner none s =
      Except.error SoapFailure.malformedReportXml) ∧
    SoapFailure.emptyPayload ≠ SoapFailure.malformedReportXml :=
  malformed_outer_spec malformedOuterDoc (by decide) (by decide) (by decide)
    (by decide) (by decide)

end OtbiAdapter
